/-
Verification of the tormach-cam geometric / motion-planning core against its
specification.

The Python source is shallowly embedded over exact rationals (ℚ): Python
floats become ℚ, Python ints become ℤ/ℕ, raised exceptions become
`Except.error`, and `while` loops become structurally recursive functions
driven by an explicit fuel argument that is proved ample for the loop's
actual iteration count.  External geometry-library calls (shapely buffer /
difference / intersection) are not re-implemented; where a claim only
concerns the toolpath structure built *from* their results, those results
are taken as inputs of the embedded function, exactly at the boundary where
the source consumes them.
-/

import Mathlib

namespace TormachCam

/-- The 1e-9 epsilon used by `compute_z_levels` (slicer.py line 125) and by
`raster_lines_in_bounds` (utils.py line 91). -/
def eps9 : ℚ := 1 / 10 ^ 9

/-- Python's built-in `round` to an integer: round half to even
(banker's rounding).  `round(y)` returns the nearest integer to `y`;
exact halves go to the even neighbour. -/
def pyRound (y : ℚ) : ℤ :=
  if y - ⌊y⌋ < 1 / 2 then ⌊y⌋
  else if 1 / 2 < y - ⌊y⌋ then ⌊y⌋ + 1
  else if ⌊y⌋ % 2 = 0 then ⌊y⌋ else ⌊y⌋ + 1

/-- Python's `round(q, 10)` (slicer.py line 126): round to 10 decimal
places, half to even. -/
def round10 (q : ℚ) : ℚ := (pyRound (q * 10 ^ 10) : ℚ) / 10 ^ 10

theorem pyRound_bounds (y : ℚ) : ⌊y⌋ ≤ pyRound y ∧ pyRound y ≤ ⌊y⌋ + 1 := by
  unfold pyRound
  split_ifs <;> omega

theorem le_pyRound (y : ℚ) : y - 1 / 2 ≤ (pyRound y : ℚ) := by
  have hfl : (⌊y⌋ : ℚ) ≤ y := Int.floor_le y
  have hlt : y < (⌊y⌋ : ℚ) + 1 := Int.lt_floor_add_one y
  unfold pyRound
  split_ifs with h1 h2 h3 <;> push_cast <;> linarith

theorem pyRound_le (y : ℚ) : (pyRound y : ℚ) ≤ y + 1 / 2 := by
  have hfl : (⌊y⌋ : ℚ) ≤ y := Int.floor_le y
  unfold pyRound
  split_ifs with h1 h2 h3 <;> push_cast <;> linarith

theorem pyRound_mono {a b : ℚ} (hab : a ≤ b) : pyRound a ≤ pyRound b := by
  have hfl : ⌊a⌋ ≤ ⌊b⌋ := Int.floor_mono hab
  rcases eq_or_lt_of_le hfl with heq | hlt
  · have hfr : a - (⌊a⌋ : ℚ) ≤ b - (⌊b⌋ : ℚ) := by
      rw [← heq]; linarith
    unfold pyRound
    rw [← heq]
    split_ifs <;> first | omega | linarith
  · have h1 := (pyRound_bounds a).2
    have h2 := (pyRound_bounds b).1
    omega

theorem round10_mono {a b : ℚ} (hab : a ≤ b) : round10 a ≤ round10 b := by
  unfold round10
  have h : pyRound (a * 10 ^ 10) ≤ pyRound (b * 10 ^ 10) :=
    pyRound_mono (by nlinarith)
  have h' : ((pyRound (a * 10 ^ 10) : ℤ) : ℚ) ≤ (pyRound (b * 10 ^ 10) : ℚ) :=
    Int.cast_le.mpr h
  rw [div_eq_mul_inv, div_eq_mul_inv]
  exact mul_le_mul_of_nonneg_right h' (by positivity)

theorem le_round10 (q : ℚ) : q - 1 / (2 * 10 ^ 10) ≤ round10 q := by
  unfold round10
  have h := le_pyRound (q * 10 ^ 10)
  linarith

theorem round10_le (q : ℚ) : round10 q ≤ q + 1 / (2 * 10 ^ 10) := by
  unfold round10
  have h := pyRound_le (q * 10 ^ 10)
  linarith

/-- The `while z > z_bottom + 1e-9` loop of `compute_z_levels`
(slicer.py lines 123-127), with an explicit fuel bound on the number of
iterations.  Each pass appends `round(z, 10)` and decrements the
(un-rounded) loop variable by `step`. -/
def zLoop : ℕ → ℚ → ℚ → ℚ → List ℚ
  | 0, _, _, _ => []
  | fuel + 1, z, zb, step =>
      if zb + eps9 < z then round10 z :: zLoop fuel (z - step) zb step
      else []

/-- Fuel that strictly dominates the iteration count of `zLoop` when started
at `z_top - step` with positive `step`. -/
def zFuel (z_top z_bottom step : ℚ) : ℕ :=
  (⌈(z_top - z_bottom) / step⌉).toNat + 1

/-- `compute_z_levels` (slicer.py lines 95-131): Z levels from `z_top`
downward by `step_down` increments, with a guaranteed floor pass at
(the 10-decimal rounding of) `z_bottom`.  The two `raise ValueError`
branches become `Except.error`. -/
def compute_z_levels (z_top z_bottom step_down : ℚ) : Except String (List ℚ) :=
  if step_down ≤ 0 then .error "step_down must be positive"
  else if z_top ≤ z_bottom then .error "z_bottom must be less than z_top"
  else .ok (zLoop (zFuel z_top z_bottom step_down) (z_top - step_down)
              z_bottom step_down ++ [round10 z_bottom])

theorem zLoop_succ (fuel : ℕ) (z zb step : ℚ) :
    zLoop (fuel + 1) z zb step =
      if zb + eps9 < z then round10 z :: zLoop fuel (z - step) zb step
      else [] := rfl

/-- Adding fuel beyond the point where the loop condition has failed does
not change the result: the embedding's fuel is semantically inert. -/
theorem zLoop_fuel_stable (step : ℚ) (hstep : 0 ≤ step) :
    ∀ (fuel : ℕ) (z zb : ℚ), z ≤ zb + eps9 + fuel * step →
      zLoop (fuel + 1) z zb step = zLoop fuel z zb step := by
  intro fuel
  induction fuel with
  | zero =>
      intro z zb h
      rw [zLoop_succ]
      simp only [Nat.cast_zero, zero_mul, add_zero] at h
      rw [if_neg (by linarith)]
      rfl
  | succ n ih =>
      intro z zb h
      rw [zLoop_succ (n + 1) z zb step, zLoop_succ n z zb step]
      by_cases hc : zb + eps9 < z
      · rw [if_pos hc, if_pos hc]
        have h' : z - step ≤ zb + eps9 + n * step := by
          push_cast at h ⊢
          linarith
        rw [ih (z - step) zb h']
      · rw [if_neg hc, if_neg hc]

/-- Every element of the loop output is `round10 w` for some un-rounded
iterate `w` with `zb + 1e-9 < w ≤ z`. -/
theorem zLoop_mem (step : ℚ) (hstep : 0 ≤ step) :
    ∀ (fuel : ℕ) (z zb x : ℚ), x ∈ zLoop fuel z zb step →
      ∃ w, x = round10 w ∧ zb + eps9 < w ∧ w ≤ z := by
  intro fuel
  induction fuel with
  | zero => intro z zb x hx; simp [zLoop] at hx
  | succ n ih =>
      intro z zb x hx
      rw [zLoop_succ] at hx
      by_cases hc : zb + eps9 < z
      · rw [if_pos hc] at hx
        rcases List.mem_cons.mp hx with h | h
        · exact ⟨z, h, hc, le_refl z⟩
        · rcases ih (z - step) zb x h with ⟨w, hw, hw1, hw2⟩
          exact ⟨w, hw, hw1, by linarith⟩
      · rw [if_neg hc] at hx
        simp at hx

/-- The loop output is weakly descending. -/
theorem zLoop_chain (step : ℚ) (hstep : 0 ≤ step) :
    ∀ (fuel : ℕ) (z zb : ℚ), (zLoop fuel z zb step).Chain' (· ≥ ·) := by
  intro fuel
  induction fuel with
  | zero => intro z zb; simp [zLoop]
  | succ n ih =>
      intro z zb
      rw [zLoop_succ]
      by_cases hc : zb + eps9 < z
      · rw [if_pos hc]
        refine List.chain'_cons'.mpr ⟨?_, ih (z - step) zb⟩
        intro y hy
        cases hn : zLoop n (z - step) zb step with
        | nil => rw [hn] at hy; simp at hy
        | cons a l =>
            rw [hn] at hy
            simp only [List.head?_cons, Option.mem_def, Option.some.injEq] at hy
            have ha : a ∈ zLoop n (z - step) zb step := by rw [hn]; simp
            rcases zLoop_mem step hstep n (z - step) zb a ha with ⟨w, hw, _, hw2⟩
            subst hy
            rw [hw]
            exact round10_mono (by linarith)
      · rw [if_neg hc]; simp

theorem zLoop_head (fuel : ℕ) (z zb step : ℚ) (hc : zb + eps9 < z) :
    (zLoop (fuel + 1) z zb step).head? = some (round10 z) := by
  rw [zLoop_succ, if_pos hc]
  rfl

theorem zLoop_empty (fuel : ℕ) (z zb step : ℚ) (hc : ¬ zb + eps9 < z) :
    zLoop fuel z zb step = [] := by
  cases fuel with
  | zero => rfl
  | succ n => rw [zLoop_succ, if_neg hc]

theorem pyRound_eq_of_lt_half {y : ℚ} {n : ℤ} (h1 : (n : ℚ) ≤ y)
    (h2 : y < (n : ℚ) + 1 / 2) : pyRound y = n := by
  have hfl : ⌊y⌋ = n := by
    rw [Int.floor_eq_iff]
    exact ⟨h1, by push_cast; linarith⟩
  unfold pyRound
  rw [hfl, if_pos (by push_cast; linarith)]

theorem pyRound_eq_of_half_lt {y : ℚ} {n : ℤ} (h1 : (n : ℚ) + 1 / 2 < y)
    (h2 : y < (n : ℚ) + 1) : pyRound y = n + 1 := by
  have hfl : ⌊y⌋ = n := by
    rw [Int.floor_eq_iff]
    exact ⟨by push_cast; linarith, by push_cast; linarith⟩
  unfold pyRound
  rw [hfl, if_neg (by push_cast; linarith), if_pos (by push_cast; linarith)]

/-- C1 (amended).  For every input with step-down > 0 and z-bottom < z-top,
`compute_z_levels` succeeds and returns a weakly descending (non-increasing)
list whose first value is `round10 (z_top - step_down)` when
`z_top - step_down > z_bottom + 1e-9` and `round10 z_bottom` otherwise,
whose last value is `round10 z_bottom` (z-bottom rounded to 10 decimals),
whose values before the final floor pass are all strictly greater than
z-bottom, and whose length is ≥ 1. -/
theorem compute_z_levels_spec (zt zb st : ℚ) (hst : 0 < st) (hz : zb < zt) :
    ∃ L : List ℚ, compute_z_levels zt zb st = .ok L ∧
      L ≠ [] ∧
      L.Chain' (· ≥ ·) ∧
      L.head? = some (if zb + eps9 < zt - st then round10 (zt - st)
                      else round10 zb) ∧
      L.getLast? = some (round10 zb) ∧
      (∀ x ∈ L.dropLast, zb < x) := by
  have heps : eps9 = 1 / 10 ^ 9 := rfl
  refine ⟨zLoop (zFuel zt zb st) (zt - st) zb st ++ [round10 zb],
    ?_, ?_, ?_, ?_, ?_, ?_⟩
  · unfold compute_z_levels
    rw [if_neg (not_le.mpr hst), if_neg (not_le.mpr hz)]
  · simp
  · refine List.chain'_append.mpr
      ⟨zLoop_chain st hst.le _ _ _, List.chain'_singleton _, ?_⟩
    intro x hx y hy
    simp only [List.head?_cons, Option.mem_def, Option.some.injEq] at hy
    subst hy
    have hx' : x ∈ zLoop (zFuel zt zb st) (zt - st) zb st :=
      List.mem_of_mem_getLast? (Option.mem_def.mpr hx)
    rcases zLoop_mem st hst.le _ _ _ _ hx' with ⟨w, hw, hw1, _⟩
    rw [hw]
    exact round10_mono (by rw [heps] at hw1; linarith)
  · by_cases hc : zb + eps9 < zt - st
    · rw [if_pos hc,
        show zFuel zt zb st = (⌈(zt - zb) / st⌉).toNat + 1 from rfl,
        zLoop_succ, if_pos hc]
      rfl
    · rw [if_neg hc, zLoop_empty _ _ _ _ hc]
      rfl
  · exact List.getLast?_concat _
  · rw [List.dropLast_concat]
    intro x hx
    rcases zLoop_mem st hst.le _ _ _ _ hx with ⟨w, hw, hw1, _⟩
    have hb := le_round10 w
    rw [heps] at hw1
    rw [hw]
    linarith

/-- C1 counterexample.  At z-top = 0, z-bottom = -1.03e-9, step-down = 1e-11
(a valid input: step-down > 0 and z-bottom < z-top), the returned list is
[0, 0, -1e-9]: it is not strictly descending, its first value is not
z-top - step-down = -1e-11, and its last value is not exactly
z-bottom = -1.03e-9. -/
theorem compute_z_levels_c1_cex :
    (0 : ℚ) < 1 / 10 ^ 11 ∧ (-(103 / 10 ^ 11) : ℚ) < 0 ∧
    compute_z_levels 0 (-(103 / 10 ^ 11)) (1 / 10 ^ 11) =
      .ok [0, 0, -(1 / 10 ^ 9)] ∧
    ¬ List.Chain' (· > ·) ([0, 0, -(1 / 10 ^ 9)] : List ℚ) ∧
    (0 : ℚ) ≠ 0 - 1 / 10 ^ 11 ∧
    (-(1 / 10 ^ 9) : ℚ) ≠ -(103 / 10 ^ 11) := by
  have r1 : round10 (0 - 1 / 10 ^ 11) = 0 := by
    unfold round10
    rw [show ((0 : ℚ) - 1 / 10 ^ 11) * 10 ^ 10 = -1 / 10 by norm_num,
      pyRound_eq_of_half_lt (n := -1) (by norm_num) (by norm_num)]
    norm_num
  have r2 : round10 (0 - 1 / 10 ^ 11 - 1 / 10 ^ 11) = 0 := by
    unfold round10
    rw [show ((0 : ℚ) - 1 / 10 ^ 11 - 1 / 10 ^ 11) * 10 ^ 10 = -1 / 5 by
        norm_num,
      pyRound_eq_of_half_lt (n := -1) (by norm_num) (by norm_num)]
    norm_num
  have rb : round10 (-(103 / 10 ^ 11)) = -(1 / 10 ^ 9) := by
    unfold round10
    rw [show (-(103 / 10 ^ 11) : ℚ) * 10 ^ 10 = -103 / 10 by norm_num,
      pyRound_eq_of_half_lt (n := -11) (by norm_num) (by norm_num)]
    norm_num
  have e1 : zFuel 0 (-(103 / 10 ^ 11)) (1 / 10 ^ 11) = 104 := by
    unfold zFuel
    norm_num
    rfl
  refine ⟨by norm_num, by norm_num, ?_, ?_, by norm_num, by norm_num⟩
  · unfold compute_z_levels
    rw [if_neg (by norm_num), if_neg (by norm_num), e1,
      show (104 : ℕ) = 103 + 1 from rfl, zLoop_succ,
      if_pos (by norm_num [eps9]),
      show (103 : ℕ) = 102 + 1 from rfl, zLoop_succ,
      if_pos (by norm_num [eps9]),
      zLoop_empty 102 _ _ _ (by norm_num [eps9]),
      r1, r2, rb]
    rfl
  · intro h
    have h1 := List.chain'_cons.mp h
    exact absurd h1.1 (by norm_num)

/-- Witness for C1 (amended) at z-top = 0, z-bottom = -0.25,
step-down = 0.05. -/
theorem compute_z_levels_spec_witness :
    (0 : ℚ) < 1 / 20 ∧ (-(1 / 4) : ℚ) < 0 ∧
    ∃ L : List ℚ, compute_z_levels 0 (-(1 / 4)) (1 / 20) = .ok L ∧
      L ≠ [] ∧
      L.Chain' (· ≥ ·) ∧
      L.head? = some (if -(1 / 4) + eps9 < 0 - 1 / 20
                      then round10 (0 - 1 / 20) else round10 (-(1 / 4))) ∧
      L.getLast? = some (round10 (-(1 / 4))) ∧
      (∀ x ∈ L.dropLast, -(1 / 4) < x) :=
  ⟨by norm_num, by norm_num,
    compute_z_levels_spec 0 (-(1 / 4)) (1 / 20) (by norm_num) (by norm_num)⟩

/-- C5.  `compute_z_levels` fails (with the `InvalidParameter`-kind
`ValueError`) exactly when step-down ≤ 0 or z-bottom ≥ z-top, and returns
normally exactly when step-down > 0 and z-bottom < z-top. -/
theorem compute_z_levels_error_iff (zt zb st : ℚ) :
    ((∃ m, compute_z_levels zt zb st = .error m) ↔ (st ≤ 0 ∨ zt ≤ zb)) ∧
    ((∃ L, compute_z_levels zt zb st = .ok L) ↔ (0 < st ∧ zb < zt)) := by
  unfold compute_z_levels
  split_ifs with h1 h2
  · constructor
    · simp only [Except.error.injEq]
      constructor
      · intro _; exact Or.inl h1
      · intro _; exact ⟨_, rfl⟩
    · constructor
      · rintro ⟨L, hL⟩; cases hL
      · rintro ⟨ha, _⟩; exact absurd h1 (not_le.mpr ha)
  · constructor
    · constructor
      · intro _; exact Or.inr h2
      · intro _; exact ⟨_, rfl⟩
    · constructor
      · rintro ⟨L, hL⟩; cases hL
      · rintro ⟨_, hb⟩; exact absurd h2 (not_le.mpr hb)
  · constructor
    · constructor
      · rintro ⟨m, hm⟩; cases hm
      · intro h
        rcases h with h | h
        · exact absurd h h1
        · exact absurd h h2
    · constructor
      · intro _; exact ⟨not_le.mp h1, not_le.mp h2⟩
      · intro _; exact ⟨_, rfl⟩

/-- Witness for C5 on an invalid and a valid input. -/
theorem compute_z_levels_error_iff_witness :
    (∃ m, compute_z_levels 0 (1 / 2) (1 / 10) = .error m) ∧
    (∃ L, compute_z_levels 0 (-(1 / 2)) (1 / 10) = .ok L) :=
  ⟨(compute_z_levels_error_iff 0 (1 / 2) (1 / 10)).1.mpr
      (Or.inr (by norm_num)),
    (compute_z_levels_error_iff 0 (-(1 / 2)) (1 / 10)).2.mpr
      ⟨by norm_num, by norm_num⟩⟩

/-! ## Toolpath data model (core/toolpath/base.py) -/

/-- `MoveType` (base.py lines 10-15). -/
inductive MoveType
  | rapid
  | feed
  | plunge
  | retract
deriving DecidableEq

/-- `ToolpathPoint` (base.py lines 18-28). -/
structure ToolpathPoint where
  x : ℚ
  y : ℚ
  z : ℚ
  move_type : MoveType := .feed
  feed_rate : Option ℚ := none
deriving DecidableEq

/-- `ToolpathSegment` (base.py lines 31-42). -/
structure ToolpathSegment where
  points : List ToolpathPoint := []
  z_level : Option ℚ := none
  label : String := ""
deriving DecidableEq

/-- `ToolpathSegment.is_empty` (base.py line 41): `len(self.points) == 0`. -/
def ToolpathSegment.is_empty (s : ToolpathSegment) : Bool := s.points.isEmpty

/-- `Toolpath` (base.py lines 45-61). -/
structure Toolpath where
  segments : List ToolpathSegment := []
  tool_number : ℤ := 1
  operation_name : String := ""
deriving DecidableEq

/-- `Toolpath.is_empty` (base.py line 60): all segments empty. -/
def Toolpath.is_empty (tp : Toolpath) : Bool :=
  tp.segments.all (fun s => s.is_empty)

/-! ## Finishing planner (core/toolpath/finishing.py) -/

/-- `FinishingParams` (finishing.py lines 18-27). -/
structure FinishingParams where
  tool_radius : ℚ
  feed_xy : ℚ
  feed_z : ℚ
  safe_z : ℚ
  rapid_z : ℚ
  extra_offset : ℚ := 0
deriving DecidableEq

/-- `_trace_ring` (finishing.py lines 85-114): trace a closed 2D ring at
height `z` with rapid approach, plunge, feed moves, a closing feed when the
ring's last point is not its first, and a final retract.  Rings with fewer
than 2 points (list length) yield an empty segment. -/
def trace_ring (coords : List (ℚ × ℚ)) (z : ℚ) (params : FinishingParams)
    (label : String) : ToolpathSegment :=
  match coords with
  | c0 :: c1 :: rest =>
      { points :=
          [⟨c0.1, c0.2, params.safe_z, .rapid, none⟩,
           ⟨c0.1, c0.2, z, .plunge, some params.feed_z⟩]
          ++ (c1 :: rest).map
              (fun c => ⟨c.1, c.2, z, .feed, some params.feed_xy⟩)
          ++ (if (c1 :: rest).getLast (List.cons_ne_nil c1 rest) = c0 then []
              else [⟨c0.1, c0.2, z, .feed, some params.feed_xy⟩])
          ++ [⟨c0.1, c0.2, params.safe_z, .retract, none⟩],
        z_level := some z, label := label }
  | _ => { points := [], z_level := some z, label := label }

/-- One ring visited by the nested loops of `generate_finishing_toolpath`
(finishing.py lines 53-80), after the external shapely geometry (buffer by
tool_radius + extra_offset, `iter_polygons`, exterior/interior ring
extraction) has produced its coordinate list. -/
structure RingAtLevel where
  coords : List (ℚ × ℚ)
  z : ℚ
  label : String
deriving DecidableEq

/-- `generate_finishing_toolpath` (finishing.py lines 30-82) at the geometry
boundary: the sequence of rings its loops visit is the input (the shapely
offsetting that produces them is external); for each ring the planner builds
`_trace_ring` and adds the segment iff it is non-empty. -/
def generate_finishing_toolpath (rings : List RingAtLevel)
    (params : FinishingParams) : Toolpath :=
  { segments :=
      rings.foldl (fun acc r =>
        let seg := trace_ring r.coords r.z params r.label
        if seg.is_empty then acc else acc ++ [seg]) [],
    tool_number := 1, operation_name := "finishing" }

/-- The last feed-class point of a segment, if any. -/
def lastFeedPoint (seg : ToolpathSegment) : Option ToolpathPoint :=
  (seg.points.filter (fun p => decide (p.move_type = MoveType.feed))).getLast?

/-- C4.  Every plunge point of a segment produced by the finishing planner's
ring tracer shares its (x, y) with the segment's last feed point, within
tolerance 1e-6 (in fact exactly): each traced ring is a closed loop. -/
theorem trace_ring_closed_loop (coords : List (ℚ × ℚ)) (z : ℚ)
    (params : FinishingParams) (label : String) (p : ToolpathPoint)
    (hp : p ∈ (trace_ring coords z params label).points)
    (hplunge : p.move_type = MoveType.plunge) :
    ∃ q, lastFeedPoint (trace_ring coords z params label) = some q ∧
      |q.x - p.x| ≤ 1 / 10 ^ 6 ∧ |q.y - p.y| ≤ 1 / 10 ^ 6 := by
  match coords with
  | [] => simp [trace_ring] at hp
  | [c] => simp [trace_ring] at hp
  | c0 :: c1 :: rest =>
      have hpts : p = ⟨c0.1, c0.2, z, .plunge, some params.feed_z⟩ := by
        simp only [trace_ring, List.append_assoc, List.mem_append] at hp
        rcases hp with h | h | h | h
        · rcases List.mem_cons.mp h with h | h
          · rw [h] at hplunge; simp at hplunge
          · rw [List.mem_singleton] at h
            exact h
        · rcases List.mem_map.mp h with ⟨c, _, hc⟩
          rw [← hc] at hplunge; simp at hplunge
        · split_ifs at h
          · simp at h
          · rw [List.mem_singleton] at h
            rw [h] at hplunge; simp at hplunge
        · rw [List.mem_singleton] at h
          rw [h] at hplunge; simp at hplunge
      have hfeeds : List.filter (fun q => decide (q.move_type = MoveType.feed))
            ((c1 :: rest).map
              (fun c => (⟨c.1, c.2, z, .feed, some params.feed_xy⟩ :
                ToolpathPoint))) =
          (c1 :: rest).map
            (fun c => (⟨c.1, c.2, z, .feed, some params.feed_xy⟩ :
              ToolpathPoint)) := by
        refine List.filter_eq_self.mpr ?_
        intro a ha
        rcases List.mem_map.mp ha with ⟨c, _, hc⟩
        rw [← hc]
        simp
      rw [hpts]
      refine ⟨⟨c0.1, c0.2, z, .feed, some params.feed_xy⟩, ?_, by simp,
        by simp⟩
      unfold lastFeedPoint
      by_cases hclose : (c1 :: rest).getLast (List.cons_ne_nil c1 rest) = c0
      · simp only [trace_ring, if_pos hclose, List.append_nil,
          List.filter_append, hfeeds,
          show List.filter (fun q => decide (q.move_type = MoveType.feed))
            [(⟨c0.1, c0.2, params.safe_z, .rapid, none⟩ : ToolpathPoint),
             ⟨c0.1, c0.2, z, .plunge, some params.feed_z⟩] = [] from rfl,
          show List.filter (fun q => decide (q.move_type = MoveType.feed))
            ([] : List ToolpathPoint) = [] from rfl,
          show List.filter (fun q => decide (q.move_type = MoveType.feed))
            [(⟨c0.1, c0.2, params.safe_z, .retract, none⟩ : ToolpathPoint)]
            = [] from rfl,
          List.nil_append]
        rw [List.getLast?_map,
          List.getLast?_eq_getLast (c1 :: rest) (List.cons_ne_nil c1 rest),
          hclose]
        rfl
      · simp only [trace_ring, if_neg hclose, List.filter_append, hfeeds,
          show List.filter (fun q => decide (q.move_type = MoveType.feed))
            [(⟨c0.1, c0.2, params.safe_z, .rapid, none⟩ : ToolpathPoint),
             ⟨c0.1, c0.2, z, .plunge, some params.feed_z⟩] = [] from rfl,
          show List.filter (fun q => decide (q.move_type = MoveType.feed))
            [(⟨c0.1, c0.2, z, .feed, some params.feed_xy⟩ : ToolpathPoint)]
            = [⟨c0.1, c0.2, z, .feed, some params.feed_xy⟩] from rfl,
          show List.filter (fun q => decide (q.move_type = MoveType.feed))
            [(⟨c0.1, c0.2, params.safe_z, .retract, none⟩ : ToolpathPoint)]
            = [] from rfl,
          List.nil_append, List.append_nil]
        rw [List.getLast?_concat]

/-- Witness for C4 on the ring [(0,0), (1,0)]. -/
theorem trace_ring_closed_loop_witness :
    (⟨0, 0, -1, .plunge, some 5⟩ : ToolpathPoint) ∈
      (trace_ring [((0 : ℚ), (0 : ℚ)), ((1 : ℚ), (0 : ℚ))] (-1)
        ⟨1 / 4, 20, 5, 1 / 10, 1 / 2, 0⟩ "").points ∧
    ∃ q, lastFeedPoint
        (trace_ring [((0 : ℚ), (0 : ℚ)), ((1 : ℚ), (0 : ℚ))] (-1)
          ⟨1 / 4, 20, 5, 1 / 10, 1 / 2, 0⟩ "") = some q ∧
      |q.x - 0| ≤ 1 / 10 ^ 6 ∧ |q.y - 0| ≤ 1 / 10 ^ 6 := by
  have hp : (⟨0, 0, -1, .plunge, some 5⟩ : ToolpathPoint) ∈
      (trace_ring [((0 : ℚ), (0 : ℚ)), ((1 : ℚ), (0 : ℚ))] (-1)
        ⟨1 / 4, 20, 5, 1 / 10, 1 / 2, 0⟩ "").points := by
    simp only [trace_ring]
    rw [if_neg (by simp)]
    simp
  refine ⟨hp, ?_⟩
  have h2 := trace_ring_closed_loop _ _ _ _ _ hp rfl
  simpa using h2

theorem finishing_fold_nonempty (params : FinishingParams) :
    ∀ (rings : List RingAtLevel) (acc : List ToolpathSegment),
      (∀ s ∈ acc, s.is_empty = false) →
      ∀ s ∈ rings.foldl (fun acc r =>
          let seg := trace_ring r.coords r.z params r.label
          if seg.is_empty then acc else acc ++ [seg]) acc,
        s.is_empty = false := by
  intro rings
  induction rings with
  | nil => intro acc h s hs; exact h s hs
  | cons r rs ih =>
      intro acc h s hs
      rw [List.foldl_cons] at hs
      refine ih _ ?_ s hs
      intro t ht
      simp only at ht
      by_cases hseg : (trace_ring r.coords r.z params r.label).is_empty
      · rw [if_pos hseg] at ht
        exact h t ht
      · rw [if_neg hseg] at ht
        rcases List.mem_append.mp ht with h' | h'
        · exact h t h'
        · rw [List.mem_singleton] at h'
          rw [h']
          exact Bool.not_eq_true _ ▸ eq_false_of_ne_true hseg

/-- C7 (amended).  For every ring given as a list of fewer than 2 points
(list length — the source checks `len(coords) < 2`, not the number of
*distinct* points), `_trace_ring` returns an empty segment; and the
finishing planner adds only non-empty segments to the toolpath, so no
segment is added for such a ring. -/
theorem trace_ring_short_skip (coords : List (ℚ × ℚ)) (z : ℚ)
    (params : FinishingParams) (label : String)
    (h : coords.length < 2) :
    (trace_ring coords z params label).points = [] ∧
    ∀ (rings : List RingAtLevel) (params2 : FinishingParams),
      ∀ seg ∈ (generate_finishing_toolpath rings params2).segments,
        seg.is_empty = false := by
  constructor
  · match coords with
    | [] => rfl
    | [c] => rfl
    | c0 :: c1 :: rest =>
        exfalso
        rw [List.length_cons, List.length_cons] at h
        omega
  · intro rings params2 seg hseg
    exact finishing_fold_nonempty params2 rings [] (by simp) seg hseg

/-- C7 counterexample.  The ring [(0,0), (0,0)] has a single distinct point
(fewer than 2), yet `_trace_ring` returns a non-empty segment for it: the
source's skip test counts list entries, not distinct points. -/
theorem trace_ring_c7_cex :
    (([((0 : ℚ), (0 : ℚ)), ((0 : ℚ), (0 : ℚ))] :
        List (ℚ × ℚ)).toFinset).card < 2 ∧
    (trace_ring [((0 : ℚ), (0 : ℚ)), ((0 : ℚ), (0 : ℚ))] (-1)
        ⟨1 / 4, 20, 5, 1 / 10, 1 / 2, 0⟩ "").is_empty = false := by
  constructor
  · simp
  · simp only [trace_ring]
    rw [if_pos (by simp)]
    simp [ToolpathSegment.is_empty]

/-! ## Roughing planner (core/toolpath/roughing.py) -/

/-- `RoughingParams` (roughing.py lines 24-36). -/
structure RoughingParams where
  tool_radius : ℚ
  step_over : ℚ
  step_down : ℚ
  feed_xy : ℚ
  feed_z : ℚ
  safe_z : ℚ
  rapid_z : ℚ
  finish_allowance : ℚ := 0
  raster_angle : ℚ := 0
deriving DecidableEq

/-- The entry moves prepended for one clipped raster line
(roughing.py lines 141-156): on the first move a rapid to safe-z and a
plunge; afterwards a retract from the previous point, a rapid to the new
start, and a plunge.  The `none` case of `pts.getLast?` is unreachable in
the source (first_move is false only after points were appended); it is
given the first-move entry, which no claim depends on. -/
def zigzagEntry (z : ℚ) (params : RoughingParams) (pts : List ToolpathPoint) :
    Bool → ℚ → ℚ → List ToolpathPoint
  | true, sx, sy =>
      [⟨sx, sy, params.safe_z, .rapid, none⟩,
       ⟨sx, sy, z, .plunge, some params.feed_z⟩]
  | false, sx, sy =>
      match pts.getLast? with
      | some prev =>
          [⟨prev.x, prev.y, params.safe_z, .retract, none⟩,
           ⟨sx, sy, params.safe_z, .rapid, none⟩,
           ⟨sx, sy, z, .plunge, some params.feed_z⟩]
      | none =>
          [⟨sx, sy, params.safe_z, .rapid, none⟩,
           ⟨sx, sy, z, .plunge, some params.feed_z⟩]

/-- One iteration of the `for coords in clipped_lines` loop of
`_raster_zigzag_at_level` (roughing.py lines 134-160): the accumulator is
the appended-to point list plus the `first_move` flag.  Empty coordinate
lists are skipped; otherwise the entry moves and the feed moves through the
remaining coordinates are appended. -/
def zigzagStep (z : ℚ) (params : RoughingParams) :
    List ToolpathPoint × Bool → List (ℚ × ℚ) → List ToolpathPoint × Bool
  | acc, [] => acc
  | (pts, first), (sx, sy) :: rest =>
      (pts ++ zigzagEntry z params pts first sx sy
        ++ rest.map (fun c => ⟨c.1, c.2, z, .feed, some params.feed_xy⟩),
       false)

/-- `_raster_zigzag_at_level` (roughing.py lines 93-168) downstream of the
shapely geometry: the zigzag-oriented clipped raster polylines (the
`clipped_lines` list of line 109, produced by `line.intersection(machinable)`
with every odd-indexed line reversed) are the input; the function builds the
typed segment and appends the final retract when non-empty. -/
def raster_zigzag_from_clipped (clipped : List (List (ℚ × ℚ))) (z : ℚ)
    (params : RoughingParams) : ToolpathSegment :=
  match ((clipped.foldl (zigzagStep z params) ([], true)).1).getLast? with
  | some prev =>
      { points := (clipped.foldl (zigzagStep z params) ([], true)).1
          ++ [⟨prev.x, prev.y, params.safe_z, .retract, none⟩],
        z_level := some z, label := "rough" }
  | none => { points := [], z_level := some z, label := "rough" }

/-- One Z level as seen by `generate_roughing_toolpath`
(roughing.py lines 67-86) after the external shapely geometry: `z` is the
level, `machinableEmpty` is `machinable.is_empty` (stock minus the part
buffered by tool_radius + finish_allowance), and `clipped` is the
zigzag-oriented clipped raster polyline list for the level. -/
structure RoughLevel where
  z : ℚ
  machinableEmpty : Bool
  clipped : List (List (ℚ × ℚ))
deriving DecidableEq

/-- `generate_roughing_toolpath` (roughing.py lines 39-90) at the geometry
boundary: levels with an empty machinable region are skipped, otherwise the
raster-zigzag segment is built and added iff non-empty. -/
def generate_roughing_toolpath (levels : List RoughLevel)
    (params : RoughingParams) : Toolpath :=
  { segments :=
      levels.foldl (fun acc l =>
        if l.machinableEmpty then acc
        else
          let seg := raster_zigzag_from_clipped l.clipped l.z params
          if seg.is_empty then acc else acc ++ [seg]) [],
    tool_number := 1, operation_name := "roughing" }

theorem zigzagEntry_head_nil (z : ℚ) (params : RoughingParams)
    (first : Bool) (sx sy : ℚ) :
    (zigzagEntry z params [] first sx sy).head? =
      some ⟨sx, sy, params.safe_z, .rapid, none⟩ := by
  cases first <;> rfl

theorem zigzagStep_head_inv (z : ℚ) (params : RoughingParams)
    (acc : List ToolpathPoint × Bool) (coords : List (ℚ × ℚ))
    (h : ∀ p, acc.1.head? = some p →
      p.move_type = MoveType.rapid ∧ p.z = params.safe_z) :
    ∀ p, (zigzagStep z params acc coords).1.head? = some p →
      p.move_type = MoveType.rapid ∧ p.z = params.safe_z := by
  match acc, coords with
  | acc, [] => exact h
  | (pts, first), (sx, sy) :: rest =>
      intro p hp
      simp only [zigzagStep] at hp
      cases hpts : pts with
      | cons q l =>
          rw [hpts] at hp
          simp only [List.cons_append, List.head?_cons,
            Option.some.injEq] at hp
          refine h p ?_
          rw [hpts, List.head?_cons, hp]
      | nil =>
          rw [hpts] at hp
          rw [List.nil_append] at hp
          cases first with
          | true =>
              simp only [zigzagEntry, List.cons_append,
                List.head?_cons, Option.some.injEq] at hp
              rw [← hp]
              exact ⟨rfl, rfl⟩
          | false =>
              simp only [zigzagEntry, List.getLast?_nil,
                List.cons_append, List.head?_cons, Option.some.injEq] at hp
              rw [← hp]
              exact ⟨rfl, rfl⟩

theorem zigzag_fold_head_inv (z : ℚ) (params : RoughingParams) :
    ∀ (lines : List (List (ℚ × ℚ))) (acc : List ToolpathPoint × Bool),
      (∀ p, acc.1.head? = some p →
        p.move_type = MoveType.rapid ∧ p.z = params.safe_z) →
      ∀ p, (lines.foldl (zigzagStep z params) acc).1.head? = some p →
        p.move_type = MoveType.rapid ∧ p.z = params.safe_z := by
  intro lines
  induction lines with
  | nil => intro acc h; exact h
  | cons l ls ih =>
      intro acc h
      rw [List.foldl_cons]
      exact ih _ (zigzagStep_head_inv z params acc l h)

theorem raster_zigzag_props (clipped : List (List (ℚ × ℚ))) (z : ℚ)
    (params : RoughingParams)
    (h : (raster_zigzag_from_clipped clipped z params).is_empty = false) :
    (∃ p, (raster_zigzag_from_clipped clipped z params).points.head? = some p ∧
      p.move_type = MoveType.rapid ∧ p.z = params.safe_z) ∧
    (∃ q, (raster_zigzag_from_clipped clipped z params).points.getLast?
        = some q ∧
      q.move_type = MoveType.retract ∧ q.z = params.safe_z) := by
  cases hlast : ((clipped.foldl (zigzagStep z params) ([], true)).1).getLast?
      with
  | none =>
      exfalso
      rw [ToolpathSegment.is_empty, raster_zigzag_from_clipped, hlast] at h
      simp at h
  | some prev =>
      constructor
      · cases hbody : (clipped.foldl (zigzagStep z params) ([], true)).1 with
        | nil => rw [hbody] at hlast; simp at hlast
        | cons b l =>
            refine ⟨b, ?_, ?_⟩
            · rw [raster_zigzag_from_clipped, hlast]
              simp only [hbody, List.cons_append, List.head?_cons]
            · refine zigzag_fold_head_inv z params clipped ([], true)
                (by intro p hp; simp at hp) b ?_
              rw [hbody, List.head?_cons]
      · refine ⟨⟨prev.x, prev.y, params.safe_z, .retract, none⟩, ?_, rfl, rfl⟩
        rw [raster_zigzag_from_clipped, hlast]
        simp only [List.getLast?_concat]

theorem roughing_fold_mem (params : RoughingParams) :
    ∀ (levels : List RoughLevel) (acc : List ToolpathSegment),
      (∀ s ∈ acc, s.is_empty = false ∧
        ∃ cl zz, s = raster_zigzag_from_clipped cl zz params) →
      ∀ s ∈ levels.foldl (fun acc l =>
          if l.machinableEmpty then acc
          else
            let seg := raster_zigzag_from_clipped l.clipped l.z params
            if seg.is_empty then acc else acc ++ [seg]) acc,
        s.is_empty = false ∧
          ∃ cl zz, s = raster_zigzag_from_clipped cl zz params := by
  intro levels
  induction levels with
  | nil => intro acc h s hs; exact h s hs
  | cons l ls ih =>
      intro acc h s hs
      rw [List.foldl_cons] at hs
      refine ih _ ?_ s hs
      intro t ht
      by_cases hm : l.machinableEmpty
      · rw [if_pos hm] at ht
        exact h t ht
      · rw [if_neg hm] at ht
        simp only at ht
        by_cases hseg : (raster_zigzag_from_clipped l.clipped l.z params).is_empty
        · rw [if_pos hseg] at ht
          exact h t ht
        · rw [if_neg hseg] at ht
          rcases List.mem_append.mp ht with h' | h'
          · exact h t h'
          · rw [List.mem_singleton] at h'
            exact ⟨h' ▸ eq_false_of_ne_true hseg, l.clipped, l.z, h'⟩

/-- C3.  Every non-empty roughing toolpath begins with a rapid move at
safe-z, and every non-empty segment of a roughing toolpath ends with a
retract at safe-z. -/
theorem roughing_first_rapid_last_retract (levels : List RoughLevel)
    (params : RoughingParams)
    (h : (generate_roughing_toolpath levels params).is_empty = false) :
    (∃ s, (generate_roughing_toolpath levels params).segments.head? = some s ∧
      ∃ p, s.points.head? = some p ∧
        p.move_type = MoveType.rapid ∧ p.z = params.safe_z) ∧
    (∀ seg ∈ (generate_roughing_toolpath levels params).segments,
      seg.is_empty = false →
      ∃ q, seg.points.getLast? = some q ∧
        q.move_type = MoveType.retract ∧ q.z = params.safe_z) := by
  have hmem := roughing_fold_mem params levels [] (by intro s hs; simp at hs)
  constructor
  · cases hsegs : (generate_roughing_toolpath levels params).segments with
    | nil =>
        exfalso
        rw [Toolpath.is_empty, hsegs] at h
        simp at h
    | cons s rest =>
        refine ⟨s, rfl, ?_⟩
        have hs : s ∈ (generate_roughing_toolpath levels params).segments := by
          rw [hsegs]; exact List.mem_cons_self s rest
        rcases hmem s hs with ⟨hne, cl, zz, hrep⟩
        rw [hrep] at hne ⊢
        rcases (raster_zigzag_props cl zz params hne).1 with ⟨p, hp1, hp2⟩
        exact ⟨p, hp1, hp2⟩
  · intro seg hseg _
    rcases hmem seg hseg with ⟨hne, cl, zz, hrep⟩
    rw [hrep] at hne ⊢
    rcases (raster_zigzag_props cl zz params hne).2 with ⟨q, hq1, hq2⟩
    exact ⟨q, hq1, hq2⟩

/-- Witness for C3 on one level with one clipped raster line. -/
theorem roughing_first_rapid_last_retract_witness :
    (generate_roughing_toolpath
        [⟨-1, false, [[((0 : ℚ), (0 : ℚ)), ((1 : ℚ), (0 : ℚ))]]⟩]
        ⟨1 / 4, 1 / 5, 1 / 20, 20, 5, 1 / 10, 1 / 2, 0, 0⟩).is_empty
      = false ∧
    ((∃ s, (generate_roughing_toolpath
        [⟨-1, false, [[((0 : ℚ), (0 : ℚ)), ((1 : ℚ), (0 : ℚ))]]⟩]
        ⟨1 / 4, 1 / 5, 1 / 20, 20, 5, 1 / 10, 1 / 2, 0, 0⟩).segments.head?
          = some s ∧
      ∃ p, s.points.head? = some p ∧
        p.move_type = MoveType.rapid ∧ p.z = (1 : ℚ) / 10) ∧
    (∀ seg ∈ (generate_roughing_toolpath
        [⟨-1, false, [[((0 : ℚ), (0 : ℚ)), ((1 : ℚ), (0 : ℚ))]]⟩]
        ⟨1 / 4, 1 / 5, 1 / 20, 20, 5, 1 / 10, 1 / 2, 0, 0⟩).segments,
      seg.is_empty = false →
      ∃ q, seg.points.getLast? = some q ∧
        q.move_type = MoveType.retract ∧ q.z = (1 : ℚ) / 10)) := by
  have hne : (generate_roughing_toolpath
      [⟨-1, false, [[((0 : ℚ), (0 : ℚ)), ((1 : ℚ), (0 : ℚ))]]⟩]
      ⟨1 / 4, 1 / 5, 1 / 20, 20, 5, 1 / 10, 1 / 2, 0, 0⟩).is_empty = false :=
    rfl
  exact ⟨hne, roughing_first_rapid_last_retract _ _ hne⟩

theorem roughing_fold_skip (params : RoughingParams) :
    ∀ (levels : List RoughLevel) (acc : List ToolpathSegment),
      (∀ l ∈ levels, l.machinableEmpty = true) →
      levels.foldl (fun acc l =>
        if l.machinableEmpty then acc
        else
          let seg := raster_zigzag_from_clipped l.clipped l.z params
          if seg.is_empty then acc else acc ++ [seg]) acc = acc := by
  intro levels
  induction levels with
  | nil => intro acc _; rfl
  | cons l ls ih =>
      intro acc h
      rw [List.foldl_cons, if_pos (h l (List.mem_cons_self l ls))]
      exact ih acc (fun t ht => h t (List.mem_cons_of_mem l ht))

/-- C6.  When the machinable region (stock minus the inflated part) is
empty at every Z level, the roughing planner returns an empty toolpath and
raises no error: levels with no machinable area are silently skipped. -/
theorem roughing_empty_when_covered (levels : List RoughLevel)
    (params : RoughingParams)
    (h : ∀ l ∈ levels, l.machinableEmpty = true) :
    (generate_roughing_toolpath levels params).segments = [] ∧
    (generate_roughing_toolpath levels params).is_empty = true := by
  have hs : (generate_roughing_toolpath levels params).segments = [] := by
    rw [generate_roughing_toolpath]
    exact roughing_fold_skip params levels [] h
  refine ⟨hs, ?_⟩
  rw [Toolpath.is_empty, hs]
  rfl

/-- Witness for C6 on one fully covered level. -/
theorem roughing_empty_when_covered_witness :
    (∀ l ∈ [(⟨-1, true, [[((0 : ℚ), (0 : ℚ)), ((1 : ℚ), (0 : ℚ))]]⟩ :
        RoughLevel)], l.machinableEmpty = true) ∧
    (generate_roughing_toolpath
        [⟨-1, true, [[((0 : ℚ), (0 : ℚ)), ((1 : ℚ), (0 : ℚ))]]⟩]
        ⟨1 / 4, 1 / 5, 1 / 20, 20, 5, 1 / 10, 1 / 2, 0, 0⟩).segments = [] ∧
    (generate_roughing_toolpath
        [⟨-1, true, [[((0 : ℚ), (0 : ℚ)), ((1 : ℚ), (0 : ℚ))]]⟩]
        ⟨1 / 4, 1 / 5, 1 / 20, 20, 5, 1 / 10, 1 / 2, 0, 0⟩).is_empty
      = true := by
  have hcov : ∀ l ∈ [(⟨-1, true, [[((0 : ℚ), (0 : ℚ)), ((1 : ℚ), (0 : ℚ))]]⟩ :
      RoughLevel)], l.machinableEmpty = true := by
    intro l hl
    rw [List.mem_singleton] at hl
    rw [hl]
  exact ⟨hcov, roughing_empty_when_covered _ _ hcov⟩

/-! ## Validator (gcode/validate.py) -/

/-- `MachineEnvelope` (validate.py lines 15-27), defaults from the source
(PCNC 1100 envelope). -/
structure MachineEnvelope where
  x_min : ℚ := 0
  x_max : ℚ := 18
  y_min : ℚ := 0
  y_max : ℚ := 19 / 2
  z_min : ℚ := -(65 / 4)
  z_max : ℚ := 0
  max_rpm : ℤ := 10000
  min_rpm : ℤ := 175
  max_feed : ℚ := 135
deriving DecidableEq

/-- Issue severity: the `"error"` / `"warning"` strings of validate.py. -/
inductive Severity
  | error
  | warning
deriving DecidableEq

/-- `ValidationIssue` (validate.py lines 30-36).  The numeric interpolation
inside the f-string messages is not modelled; the message text is kept as a
fixed tag. -/
structure ValidationIssue where
  severity : Severity
  message : String
  point : Option ToolpathPoint := none
deriving DecidableEq

/-- `ValidationResult` (validate.py lines 39-55). -/
structure ValidationResult where
  issues : List ValidationIssue := []
deriving DecidableEq

/-- `ValidationResult.has_errors` (validate.py line 47). -/
def ValidationResult.has_errors (r : ValidationResult) : Bool :=
  r.issues.any (fun i => decide (i.severity = Severity.error))

/-- `ValidationResult.has_warnings` (validate.py line 51). -/
def ValidationResult.has_warnings (r : ValidationResult) : Bool :=
  r.issues.any (fun i => decide (i.severity = Severity.warning))

/-- `ValidationResult.is_ok` (validate.py line 55). -/
def ValidationResult.is_ok (r : ValidationResult) : Bool :=
  r.issues.isEmpty

/-- The feed-rate test of validate.py line 117:
`pt.feed_rate is not None and pt.feed_rate > envelope.max_feed`. -/
def feedExceeds (envelope : MachineEnvelope) (pt : ToolpathPoint) : Bool :=
  match pt.feed_rate with
  | some f => decide (f > envelope.max_feed)
  | none => false

/-- The issues recorded for one point (validate.py lines 92-123): travel
errors for each axis outside its range, then a feed warning. -/
def pointIssues (envelope : MachineEnvelope) (pt : ToolpathPoint) :
    List ValidationIssue :=
  (if pt.x < envelope.x_min ∨ pt.x > envelope.x_max then
    [⟨.error, "X outside travel", some pt⟩] else [])
  ++ (if pt.y < envelope.y_min ∨ pt.y > envelope.y_max then
    [⟨.error, "Y outside travel", some pt⟩] else [])
  ++ (if pt.z < envelope.z_min ∨ pt.z > envelope.z_max then
    [⟨.error, "Z outside travel", some pt⟩] else [])
  ++ (if feedExceeds envelope pt then
    [⟨.warning, "Feed exceeds machine max", some pt⟩] else [])

/-- `validate_toolpaths` (validate.py lines 58-131): RPM range errors, then
per-point issues of every non-empty toolpath, then the all-empty warning.
The issue order matches the source's append order. -/
def validate_toolpaths (toolpaths : List Toolpath)
    (envelope : MachineEnvelope) (rpm : ℤ) : ValidationResult :=
  { issues :=
      (if rpm < envelope.min_rpm then
        [⟨.error, "RPM below machine minimum", none⟩] else [])
      ++ (if rpm > envelope.max_rpm then
        [⟨.error, "RPM above machine maximum", none⟩] else [])
      ++ (toolpaths.filter (fun tp => !tp.is_empty)).flatMap
          (fun tp => tp.segments.flatMap
            (fun seg => seg.points.flatMap (pointIssues envelope)))
      ++ (if toolpaths.all (fun tp => tp.is_empty) then
        [⟨.warning, "All toolpaths are empty", none⟩] else []) }

/-- A point outside the machine's travel in x, y or z
(the three error tests of validate.py lines 94-114). -/
def outOfTravel (envelope : MachineEnvelope) (pt : ToolpathPoint) : Prop :=
  pt.x < envelope.x_min ∨ pt.x > envelope.x_max ∨
  pt.y < envelope.y_min ∨ pt.y > envelope.y_max ∨
  pt.z < envelope.z_min ∨ pt.z > envelope.z_max

theorem feedExceeds_iff (envelope : MachineEnvelope) (pt : ToolpathPoint) :
    feedExceeds envelope pt = true ↔
      ∃ f, pt.feed_rate = some f ∧ f > envelope.max_feed := by
  cases hf : pt.feed_rate with
  | none => simp [feedExceeds, hf]
  | some f => simp [feedExceeds, hf]

theorem any_flatMap_eq {α β : Type} (l : List α) (f : α → List β)
    (p : β → Bool) :
    (l.flatMap f).any p = l.any (fun x => (f x).any p) := by
  induction l with
  | nil => rfl
  | cons x xs ih => simp [List.flatMap_cons, List.any_append, ih]

theorem any_filter_eq {α : Type} (l : List α) (q p : α → Bool) :
    (l.filter q).any p = l.any (fun x => q x && p x) := by
  induction l with
  | nil => rfl
  | cons x xs ih => by_cases h : q x <;> simp [List.filter_cons, h, ih]

theorem any_ite_singleton {α : Type} {c : Prop} [Decidable c]
    {a : α} {p : α → Bool} :
    ((if c then [a] else []).any p = true) ↔ (c ∧ p a = true) := by
  split_ifs with h <;> simp [h]

theorem any_ite_singleton_eq {α : Type} {c : Prop} [Decidable c]
    (a : α) (p : α → Bool) :
    (if c then [a] else []).any p = (decide c && p a) := by
  split_ifs with h <;> simp [h]

theorem pointIssues_any_error (envelope : MachineEnvelope)
    (pt : ToolpathPoint) :
    ((pointIssues envelope pt).any
        (fun i => decide (i.severity = Severity.error)) = true) ↔
      outOfTravel envelope pt := by
  unfold pointIssues
  simp only [List.any_append, any_ite_singleton_eq]
  simp [outOfTravel]
  try tauto

theorem pointIssues_any_warning (envelope : MachineEnvelope)
    (pt : ToolpathPoint) :
    ((pointIssues envelope pt).any
        (fun i => decide (i.severity = Severity.warning)) = true) ↔
      feedExceeds envelope pt = true := by
  unfold pointIssues
  simp only [List.any_append, any_ite_singleton_eq]
  simp

/-- C2.  `validate_toolpaths` reports an error iff the spindle speed is out
of the envelope's RPM range or some point of some non-empty toolpath lies
outside the travel envelope, and a warning iff some such point carries a
feed rate above the envelope's maximum or every toolpath is empty.  (The
function is pure: it only builds a result, raising nothing and mutating
nothing.) -/
theorem validate_toolpaths_iff (toolpaths : List Toolpath)
    (envelope : MachineEnvelope) (rpm : ℤ) :
    ((validate_toolpaths toolpaths envelope rpm).has_errors = true ↔
      (rpm < envelope.min_rpm ∨ rpm > envelope.max_rpm ∨
        ∃ tp ∈ toolpaths, tp.is_empty = false ∧
          ∃ seg ∈ tp.segments, ∃ pt ∈ seg.points, outOfTravel envelope pt)) ∧
    ((validate_toolpaths toolpaths envelope rpm).has_warnings = true ↔
      ((∃ tp ∈ toolpaths, tp.is_empty = false ∧
          ∃ seg ∈ tp.segments, ∃ pt ∈ seg.points,
            ∃ f, pt.feed_rate = some f ∧ f > envelope.max_feed) ∨
        ∀ tp ∈ toolpaths, tp.is_empty = true)) := by
  have hpts : ∀ (sev : Severity),
      (((toolpaths.filter (fun tp => !tp.is_empty)).flatMap
          (fun tp => tp.segments.flatMap
            (fun seg => seg.points.flatMap (pointIssues envelope)))).any
        (fun i => decide (i.severity = sev)) = true) ↔
      ∃ tp ∈ toolpaths, tp.is_empty = false ∧ ∃ seg ∈ tp.segments,
        ∃ pt ∈ seg.points,
          ((pointIssues envelope pt).any
            (fun i => decide (i.severity = sev)) = true) := by
    intro sev
    rw [any_flatMap_eq, any_filter_eq]
    simp only [any_flatMap_eq, List.any_eq_true, Bool.and_eq_true,
      Bool.not_eq_true']
  constructor
  · rw [ValidationResult.has_errors]
    simp only [validate_toolpaths, List.any_append, Bool.or_eq_true]
    rw [any_ite_singleton, any_ite_singleton, any_ite_singleton, hpts]
    simp only [decide_eq_true_eq, pointIssues_any_error, and_true,
      reduceCtorEq, and_false, or_false]
    exact or_assoc
  · rw [ValidationResult.has_warnings]
    simp only [validate_toolpaths, List.any_append, Bool.or_eq_true]
    rw [any_ite_singleton, any_ite_singleton, any_ite_singleton, hpts]
    simp only [decide_eq_true_eq, pointIssues_any_warning, feedExceeds_iff,
      List.all_eq_true, and_true, reduceCtorEq, and_false, false_or,
      or_false]

/-- Witness for C2: spindle 50 on the default envelope yields an error
(below min RPM) and, with no toolpaths at all, the all-empty warning. -/
theorem validate_toolpaths_iff_witness :
    (validate_toolpaths [] {} 50).has_errors = true ∧
    (validate_toolpaths [] {} 50).has_warnings = true :=
  ⟨(validate_toolpaths_iff [] {} 50).1.mpr (Or.inl (by decide)),
    (validate_toolpaths_iff [] {} 50).2.mpr (Or.inr (by simp))⟩

/-- Witness for C7 (amended) on the empty ring. -/
theorem trace_ring_short_skip_witness :
    ([] : List (ℚ × ℚ)).length < 2 ∧
    (trace_ring ([] : List (ℚ × ℚ)) (-1)
        ⟨1 / 4, 20, 5, 1 / 10, 1 / 2, 0⟩ "").points = [] ∧
    ∀ (rings : List RingAtLevel) (params2 : FinishingParams),
      ∀ seg ∈ (generate_finishing_toolpath rings params2).segments,
        seg.is_empty = false :=
  ⟨by norm_num,
    trace_ring_short_skip [] (-1) ⟨1 / 4, 20, 5, 1 / 10, 1 / 2, 0⟩ ""
      (by norm_num)⟩

/-! ## Raster generator (core/toolpath/utils.py) -/

/-- The `while y <= ymax + 1e-9` loop of `raster_lines_in_bounds`
(utils.py lines 89-94), with an explicit fuel bound: each pass emits the
horizontal line from (xmin, y) to (xmax, y) and advances y by `step`. -/
def rasterLoop : ℕ → ℚ → ℚ → ℚ → ℚ → ℚ → List ((ℚ × ℚ) × (ℚ × ℚ))
  | 0, _, _, _, _, _ => []
  | fuel + 1, y, xmin, xmax, ymax, step =>
      if y ≤ ymax + eps9 then
        ((xmin, y), (xmax, y)) :: rasterLoop fuel (y + step) xmin xmax ymax step
      else []

/-- Fuel that strictly dominates the iteration count of `rasterLoop` when
started at `ymin` with positive `step`. -/
def rasterFuel (ymin ymax step : ℚ) : ℕ :=
  (⌈(ymax + eps9 - ymin) / step⌉).toNat + 1

/-- The `angle_deg == 0` branch of `raster_lines_in_bounds`
(utils.py lines 65-94): horizontal lines y = ymin, ymin + step_over, …
while y ≤ ymax + 1e-9, each spanning xmin to xmax.  The rotated branch
(real-valued trigonometry, utils.py lines 96-115) lies outside the claims
about angle 0 and is not embedded. -/
def raster_lines_horizontal (xmin xmax ymin ymax step_over : ℚ) :
    List ((ℚ × ℚ) × (ℚ × ℚ)) :=
  rasterLoop (rasterFuel ymin ymax step_over) ymin xmin xmax ymax step_over

theorem rasterLoop_succ (fuel : ℕ) (y xmin xmax ymax step : ℚ) :
    rasterLoop (fuel + 1) y xmin xmax ymax step =
      if y ≤ ymax + eps9 then
        ((xmin, y), (xmax, y)) :: rasterLoop fuel (y + step) xmin xmax ymax step
      else [] := rfl

/-- Fuel is semantically inert once it dominates the iteration count. -/
theorem rasterLoop_fuel_stable (xmin xmax ymax step : ℚ) (hstep : 0 ≤ step) :
    ∀ (fuel : ℕ) (y : ℚ), ymax + eps9 < y + fuel * step →
      rasterLoop (fuel + 1) y xmin xmax ymax step =
        rasterLoop fuel y xmin xmax ymax step := by
  intro fuel
  induction fuel with
  | zero =>
      intro y h
      rw [rasterLoop_succ]
      simp only [Nat.cast_zero, zero_mul, add_zero] at h
      rw [if_neg (by linarith)]
      rfl
  | succ n ih =>
      intro y h
      rw [rasterLoop_succ (n + 1) y xmin xmax ymax step,
        rasterLoop_succ n y xmin xmax ymax step]
      by_cases hc : y ≤ ymax + eps9
      · rw [if_pos hc, if_pos hc]
        have h' : ymax + eps9 < (y + step) + n * step := by
          push_cast at h ⊢
          linarith
        rw [ih (y + step) h']
      · rw [if_neg hc, if_neg hc]

theorem rasterLoop_mem (xmin xmax ymax step : ℚ) (hstep : 0 ≤ step) :
    ∀ (fuel : ℕ) (y : ℚ) (l : (ℚ × ℚ) × (ℚ × ℚ)),
      l ∈ rasterLoop fuel y xmin xmax ymax step →
      ∃ k : ℕ, k < fuel ∧ l = ((xmin, y + k * step), (xmax, y + k * step)) ∧
        y + k * step ≤ ymax + eps9 := by
  intro fuel
  induction fuel with
  | zero => intro y l hl; simp [rasterLoop] at hl
  | succ n ih =>
      intro y l hl
      rw [rasterLoop_succ] at hl
      by_cases hc : y ≤ ymax + eps9
      · rw [if_pos hc] at hl
        rcases List.mem_cons.mp hl with h | h
        · refine ⟨0, by omega, ?_, by push_cast; linarith⟩
          rw [h]
          push_cast
          norm_num
        · rcases ih (y + step) l h with ⟨k, hk, hrep, hle⟩
          refine ⟨k + 1, by omega, ?_, ?_⟩
          · rw [hrep]
            push_cast
            ring_nf
          · push_cast at hle ⊢
            linarith
      · rw [if_neg hc] at hl
        simp at hl

theorem rasterLoop_complete (xmin xmax ymax step : ℚ) (hstep : 0 ≤ step) :
    ∀ (k fuel : ℕ) (y : ℚ), k < fuel → y + k * step ≤ ymax + eps9 →
      ((xmin, y + k * step), (xmax, y + k * step)) ∈
        rasterLoop fuel y xmin xmax ymax step := by
  intro k
  induction k with
  | zero =>
      intro fuel y hk hle
      match fuel, hk with
      | fuel + 1, _ =>
          rw [rasterLoop_succ]
          simp only [Nat.cast_zero, zero_mul, add_zero] at hle ⊢
          rw [if_pos hle]
          exact List.mem_cons_self _ _
  | succ n ih =>
      intro fuel y hk hle
      match fuel, hk with
      | fuel + 1, hk =>
          rw [rasterLoop_succ]
          have hy : y ≤ ymax + eps9 := by
            push_cast at hle
            nlinarith
          rw [if_pos hy]
          refine List.mem_cons_of_mem _ ?_
          have := ih fuel (y + step) (by omega)
            (by push_cast at hle ⊢; linarith)
          convert this using 3 <;> push_cast <;> ring

theorem rasterLoop_chain (xmin xmax ymax step : ℚ) (hstep : 0 < step) :
    ∀ (fuel : ℕ) (y : ℚ),
      (rasterLoop fuel y xmin xmax ymax step).Chain'
        (fun a b => a.1.2 < b.1.2) := by
  intro fuel
  induction fuel with
  | zero => intro y; simp [rasterLoop]
  | succ n ih =>
      intro y
      rw [rasterLoop_succ]
      by_cases hc : y ≤ ymax + eps9
      · rw [if_pos hc]
        refine List.chain'_cons'.mpr ⟨?_, ih (y + step)⟩
        intro b hb
        have hbmem : b ∈ rasterLoop n (y + step) xmin xmax ymax step := by
          cases hn : rasterLoop n (y + step) xmin xmax ymax step with
          | nil => rw [hn] at hb; simp at hb
          | cons a l =>
              rw [hn] at hb
              simp only [List.head?_cons, Option.mem_def,
                Option.some.injEq] at hb
              exact List.mem_cons.mpr (Or.inl hb.symm)
        rcases rasterLoop_mem xmin xmax ymax step hstep.le n (y + step) b
            hbmem with ⟨k, _, hrep, _⟩
        rw [hrep]
        have hk : (0 : ℚ) ≤ (k : ℚ) * step := by positivity
        simp only
        linarith
      · rw [if_neg hc]
        simp

/-- C8 (amended).  For every bounding box with y-min ≤ y-max, positive
step-over, and angle 0, the raster generator returns exactly the horizontal
lines at y = y-min + k·step-over for the natural numbers k with
y-min + k·step-over ≤ y-max + 1e-9, in strictly ascending order of y, each
spanning x-min to x-max; in particular it contains the line at y = y-min.
(A line at y = y-max itself need not appear.) -/
theorem raster_lines_horizontal_spec (xmin xmax ymin ymax step : ℚ)
    (hstep : 0 < step) (hyy : ymin ≤ ymax) :
    (∀ l, l ∈ raster_lines_horizontal xmin xmax ymin ymax step ↔
      ∃ k : ℕ, l = ((xmin, ymin + k * step), (xmax, ymin + k * step)) ∧
        ymin + k * step ≤ ymax + eps9) ∧
    (raster_lines_horizontal xmin xmax ymin ymax step).Chain'
      (fun a b => a.1.2 < b.1.2) ∧
    ((xmin, ymin), (xmax, ymin)) ∈
      raster_lines_horizontal xmin xmax ymin ymax step := by
  have heps : (0 : ℚ) < eps9 := by norm_num [eps9]
  have hmem0 : ((xmin, ymin), (xmax, ymin)) ∈
      raster_lines_horizontal xmin xmax ymin ymax step := by
    have h0 := rasterLoop_complete xmin xmax ymax step hstep.le 0
      (rasterFuel ymin ymax step) ymin
      (by rw [rasterFuel]; omega)
      (by push_cast; linarith)
    rw [raster_lines_horizontal]
    simpa using h0
  refine ⟨?_, rasterLoop_chain xmin xmax ymax step hstep _ _, hmem0⟩
  intro l
  constructor
  · intro hl
    rcases rasterLoop_mem xmin xmax ymax step hstep.le _ _ l hl with
      ⟨k, _, hrep, hle⟩
    exact ⟨k, hrep, hle⟩
  · rintro ⟨k, hrep, hle⟩
    have h1 : (k : ℚ) ≤ (ymax + eps9 - ymin) / step := by
      rw [le_div_iff hstep]
      linarith
    have h2 : ((k : ℤ) : ℚ) ≤ (⌈(ymax + eps9 - ymin) / step⌉ : ℚ) := by
      push_cast
      exact le_trans h1 (Int.le_ceil _)
    have h3 : (k : ℤ) ≤ ⌈(ymax + eps9 - ymin) / step⌉ := by
      exact_mod_cast h2
    have hk : k < rasterFuel ymin ymax step := by
      rw [rasterFuel]
      omega
    rw [hrep]
    exact rasterLoop_complete xmin xmax ymax step hstep.le k _ ymin hk hle

/-- C8 counterexample.  For the box x ∈ [0, 1], y ∈ [0, 1/2] with
step-over 1 (a valid input: step-over > 0, y-min ≤ y-max), the angle-0
raster is the single line at y = 0: no line lies within 1e-9 of
y-max = 1/2, so the generator does not always include a line at y-max. -/
theorem raster_lines_c8_cex :
    (0 : ℚ) < 1 ∧ (0 : ℚ) ≤ 1 / 2 ∧
    raster_lines_horizontal 0 1 0 (1 / 2) 1 = [((0, 0), (1, 0))] ∧
    ¬ |(0 : ℚ) - 1 / 2| ≤ 1 / 10 ^ 9 := by
  have e1 : rasterFuel 0 (1 / 2) 1 = 2 := by
    rw [rasterFuel,
      show ((1 : ℚ) / 2 + eps9 - 0) / 1 = 1 / 2 + 1 / 10 ^ 9 by
        norm_num [eps9],
      show ⌈(1 : ℚ) / 2 + 1 / 10 ^ 9⌉ = 1 from
        Int.ceil_eq_iff.mpr (by constructor <;> push_cast <;> norm_num)]
    rfl
  have e2 : raster_lines_horizontal 0 1 0 (1 / 2) 1 = [((0, 0), (1, 0))] := by
    rw [raster_lines_horizontal, e1,
      show (2 : ℕ) = 1 + 1 from rfl, rasterLoop_succ,
      if_pos (by norm_num [eps9]),
      show (1 : ℕ) = 0 + 1 from rfl, rasterLoop_succ,
      if_neg (by norm_num [eps9])]
  refine ⟨by norm_num, by norm_num, e2, ?_⟩
  norm_num
  rw [abs_of_pos (by norm_num)]
  norm_num

/-- Witness for C8 (amended) on the box x ∈ [0, 1], y ∈ [0, 1/2] with
step-over 1. -/
theorem raster_lines_horizontal_spec_witness :
    (0 : ℚ) < 1 ∧ (0 : ℚ) ≤ 1 / 2 ∧
    ((∀ l, l ∈ raster_lines_horizontal 0 1 0 (1 / 2) 1 ↔
      ∃ k : ℕ, l = (((0 : ℚ), (0 : ℚ) + k * 1), ((1 : ℚ), (0 : ℚ) + k * 1)) ∧
        (0 : ℚ) + k * 1 ≤ 1 / 2 + eps9) ∧
    (raster_lines_horizontal 0 1 0 (1 / 2) 1).Chain'
      (fun a b => a.1.2 < b.1.2) ∧
    ((0, 0), (1, 0)) ∈ raster_lines_horizontal 0 1 0 (1 / 2) 1) :=
  ⟨by norm_num, by norm_num,
    raster_lines_horizontal_spec 0 1 0 (1 / 2) 1 (by norm_num) (by norm_num)⟩

/-! ## G-code number formatting (gcode/gcode_writer.py) -/

/-- The decimal digit characters of a natural number, most significant
first (the digits of Python's `str` of an int). -/
def natChars (n : ℕ) : List Char :=
  if n = 0 then ['0'] else ((Nat.digits 10 n).map Nat.digitChar).reverse

/-- Exactly `d` fractional digit characters of `fp`, most significant
first, left-padded with zeros (the digit block after the decimal point in
a fixed-point rendering with `d` decimals). -/
def padChars (fp d : ℕ) : List Char :=
  (List.range d).map (fun j => Nat.digitChar (fp / 10 ^ (d - 1 - j) % 10))

/-- Python's fixed-point rendering of a value to `d` decimals (the
f-string `:.{d}f` conversion, with d ≥ 1 as in the source, which uses
d = 4 and d = 1) on an exact rational: optional sign, integer part,
decimal point, and `d` fractional digits of the scaled value rounded half
to even. -/
def fixedChars (q : ℚ) (d : ℕ) : List Char :=
  (if q < 0 then ['-'] else [])
  ++ natChars ((pyRound (q * 10 ^ d)).natAbs / 10 ^ d)
  ++ '.' :: padChars ((pyRound (q * 10 ^ d)).natAbs % 10 ^ d) d

/-- Python's `str.rstrip(c)`: remove every trailing occurrence of `c`. -/
def rstripChar (c : Char) (l : List Char) : List Char :=
  (l.reverse.dropWhile (fun x => x = c)).reverse

/-- `fmt` (gcode_writer.py lines 8-10): the fixed-point rendering with
`decimals` decimals, then `.rstrip("0").rstrip(".")`. -/
def fmt (value : ℚ) (decimals : ℕ) : String :=
  ⟨rstripChar '.' (rstripChar '0' (fixedChars value decimals))⟩

/-- The number of characters after the decimal point, 0 when there is no
point. -/
def decimalsAfterDot (l : List Char) : ℕ :=
  if '.' ∈ l then (l.reverse.takeWhile (fun c => c ≠ '.')).length else 0

/-- The characters a stripped fixed-point decimal rendering may contain:
no exponent marker, so never scientific notation. -/
def decimalCharSet : List Char :=
  ['-', '.', '0', '1', '2', '3', '4', '5', '6', '7', '8', '9']

theorem digit_ne_dot :
    ∀ c ∈ ['0', '1', '2', '3', '4', '5', '6', '7', '8', '9'], c ≠ '.' := by
  decide

theorem digitChar_mem_decimal :
    ∀ m : ℕ, m < 10 →
      Nat.digitChar m ∈ ['0', '1', '2', '3', '4', '5', '6', '7', '8', '9'] :=
  by decide

theorem natChars_ne_nil (n : ℕ) : natChars n ≠ [] := by
  unfold natChars
  split_ifs with h
  · simp
  · simp [Nat.digits_ne_nil_iff_ne_zero.mpr h]

theorem natChars_digits (n : ℕ) :
    ∀ c ∈ natChars n,
      c ∈ ['0', '1', '2', '3', '4', '5', '6', '7', '8', '9'] := by
  intro c hc
  unfold natChars at hc
  split_ifs at hc with h
  · rw [List.mem_singleton] at hc
    rw [hc]
    decide
  · rw [List.mem_reverse] at hc
    rcases List.mem_map.mp hc with ⟨m, hm, hmc⟩
    rw [← hmc]
    exact digitChar_mem_decimal m (Nat.digits_lt_base (by norm_num) hm)

theorem padChars_digits (fp d : ℕ) :
    ∀ c ∈ padChars fp d,
      c ∈ ['0', '1', '2', '3', '4', '5', '6', '7', '8', '9'] := by
  intro c hc
  rcases List.mem_map.mp hc with ⟨j, _, hjc⟩
  rw [← hjc]
  exact digitChar_mem_decimal _ (Nat.mod_lt _ (by norm_num))

theorem padChars_length (fp d : ℕ) : (padChars fp d).length = d := by
  simp [padChars]

theorem rstrip_subset (ch : Char) (l : List Char) :
    ∀ c ∈ rstripChar ch l, c ∈ l := by
  intro c hc
  unfold rstripChar at hc
  rw [List.mem_reverse] at hc
  have h2 := (List.dropWhile_sublist (fun x => x = ch)).subset hc
  rw [List.mem_reverse] at h2
  exact h2

theorem rstrip_length_le (ch : Char) (l : List Char) :
    (rstripChar ch l).length ≤ l.length := by
  unfold rstripChar
  rw [List.length_reverse]
  calc (l.reverse.dropWhile (fun x => x = ch)).length
      ≤ l.reverse.length :=
        List.Sublist.length_le (List.dropWhile_sublist (fun x => x = ch))
    _ = l.length := List.length_reverse l

theorem dropWhile_head_not {p : Char → Bool} :
    ∀ (l : List Char) (a : Char), (l.dropWhile p).head? = some a →
      p a = false := by
  intro l
  induction l with
  | nil => intro a ha; simp at ha
  | cons x t ih =>
      intro a ha
      rw [List.dropWhile_cons] at ha
      split_ifs at ha with hx
      · exact ih a ha
      · rw [List.head?_cons, Option.some.injEq] at ha
        rw [← ha]
        exact Bool.of_not_eq_true hx

theorem rstrip_getLast_ne (ch : Char) (l : List Char) (a : Char)
    (ha : (rstripChar ch l).getLast? = some a) : a ≠ ch := by
  unfold rstripChar at ha
  rw [List.getLast?_reverse] at ha
  have h2 := dropWhile_head_not _ a ha
  simpa using h2

theorem rstrip_append_notin (ch : Char) (A : List Char) (x : Char)
    (hx : x ≠ ch) (F : List Char) :
    rstripChar ch (A ++ x :: F) = A ++ x :: rstripChar ch F := by
  unfold rstripChar
  rw [List.reverse_append, List.reverse_cons, List.append_assoc,
    List.singleton_append, List.dropWhile_append]
  split_ifs with h
  · rw [List.isEmpty_iff] at h
    rw [List.dropWhile_cons, if_neg (by simp [hx]), h]
    simp
  · simp [List.reverse_append, List.append_assoc]

theorem rstrip_no_op (ch : Char) (l : List Char)
    (h : ∀ a, l.getLast? = some a → a ≠ ch) : rstripChar ch l = l := by
  unfold rstripChar
  cases hr : l.reverse with
  | nil =>
      have h0 : l = [] := by simpa using congrArg List.reverse hr
      rw [h0]
      rfl
  | cons a t =>
      have hla : l.getLast? = some a := by
        rw [← List.head?_reverse, hr, List.head?_cons]
      rw [List.dropWhile_cons, if_neg (by simp [h a hla]), ← hr,
        List.reverse_reverse]

theorem rstrip_concat_dot (A : List Char) (a : Char)
    (hA : A.getLast? = some a) (ha : a ≠ '.') :
    rstripChar '.' (A ++ ['.']) = A := by
  unfold rstripChar
  rw [List.reverse_append,
    show (['.'] : List Char).reverse = ['.'] from rfl,
    List.singleton_append, List.dropWhile_cons, if_pos (by simp)]
  cases hr : A.reverse with
  | nil =>
      have h0 : A = [] := by simpa using congrArg List.reverse hr
      rw [h0] at hA
      simp at hA
  | cons b t =>
      have hb : b = a := by
        have h1 := List.head?_reverse A
        rw [hr, List.head?_cons, hA] at h1
        exact Option.some.injEq _ _ ▸ h1
      rw [List.dropWhile_cons, if_neg (by simp [hb, ha]), ← hr,
        List.reverse_reverse]

theorem takeWhile_append_of_all {p : Char → Bool} :
    ∀ (l1 : List Char) (x : Char) (l2 : List Char),
      (∀ y ∈ l1, p y = true) → p x = false →
      (l1 ++ x :: l2).takeWhile p = l1 := by
  intro l1
  induction l1 with
  | nil =>
      intro x l2 _ hx
      rw [List.nil_append, List.takeWhile_cons, hx]
      simp
  | cons y t ih =>
      intro x l2 hall hx
      rw [List.cons_append, List.takeWhile_cons,
        hall y (List.mem_cons_self y t)]
      rw [ih x l2 (fun z hz => hall z (List.mem_cons_of_mem y hz)) hx]
      simp

/-- The shape of a stripped `fmt` rendering: sign and integer part, then —
unless every fractional digit was stripped — the decimal point and the
stripped fractional digits. -/
theorem fmt_data_eq (q : ℚ) (d : ℕ) :
    (fmt q d).data =
      ((if q < 0 then ['-'] else []) ++
        natChars ((pyRound (q * 10 ^ d)).natAbs / 10 ^ d)) ++
      (if rstripChar '0'
          (padChars ((pyRound (q * 10 ^ d)).natAbs % 10 ^ d) d) = []
        then []
        else '.' :: rstripChar '0'
          (padChars ((pyRound (q * 10 ^ d)).natAbs % 10 ^ d) d)) := by
  have hdata : (fmt q d).data =
      rstripChar '.' (rstripChar '0' (fixedChars q d)) := rfl
  have hfx : fixedChars q d =
      ((if q < 0 then ['-'] else []) ++
        natChars ((pyRound (q * 10 ^ d)).natAbs / 10 ^ d)) ++
      '.' :: padChars ((pyRound (q * 10 ^ d)).natAbs % 10 ^ d) d := by
    unfold fixedChars
    rw [List.append_assoc]
  have hAne : (if q < 0 then ['-'] else []) ++
      natChars ((pyRound (q * 10 ^ d)).natAbs / 10 ^ d) ≠ [] := by
    intro h0
    exact natChars_ne_nil _ (List.append_eq_nil.mp h0).2
  obtain ⟨a, hA, haDig⟩ : ∃ a,
      ((if q < 0 then ['-'] else []) ++
        natChars ((pyRound (q * 10 ^ d)).natAbs / 10 ^ d)).getLast?
        = some a ∧
      a ∈ ['0', '1', '2', '3', '4', '5', '6', '7', '8', '9'] := by
    rw [List.getLast?_append_of_ne_nil _ (natChars_ne_nil _)]
    cases hnc : (natChars ((pyRound (q * 10 ^ d)).natAbs / 10 ^ d)).getLast?
        with
    | none =>
        exfalso
        exact natChars_ne_nil _ (List.getLast?_eq_none.mp hnc)
    | some c =>
        exact ⟨c, rfl, natChars_digits _ c
          (List.mem_of_mem_getLast? (Option.mem_def.mpr hnc))⟩
  rw [hdata, hfx, rstrip_append_notin '0' _ '.' (by decide) _]
  by_cases hF : rstripChar '0'
      (padChars ((pyRound (q * 10 ^ d)).natAbs % 10 ^ d) d) = []
  · rw [if_pos hF, hF, List.append_nil]
    exact rstrip_concat_dot _ a hA (digit_ne_dot a haDig)
  · rw [if_neg hF]
    refine rstrip_no_op '.' _ ?_
    intro b hb
    rw [List.getLast?_append_of_ne_nil _ (by simp : ('.' ::
        rstripChar '0'
          (padChars ((pyRound (q * 10 ^ d)).natAbs % 10 ^ d) d)) ≠ []),
      show ('.' :: rstripChar '0'
          (padChars ((pyRound (q * 10 ^ d)).natAbs % 10 ^ d) d)) =
        ['.'] ++ rstripChar '0'
          (padChars ((pyRound (q * 10 ^ d)).natAbs % 10 ^ d) d)
        from rfl,
      List.getLast?_append_of_ne_nil _ hF] at hb
    have hmem := rstrip_subset '0' _ b
      (List.mem_of_mem_getLast? (Option.mem_def.mpr hb))
    exact digit_ne_dot b (padChars_digits _ d b hmem)

theorem dot_not_mem_sign_int (q : ℚ) (n : ℕ) :
    '.' ∉ (if q < 0 then ['-'] else []) ++ natChars n := by
  intro hd
  rcases List.mem_append.mp hd with h | h
  · split_ifs at h with hq
    · rw [List.mem_singleton] at h
      exact absurd h (by decide)
    · simp at h
  · exact absurd (natChars_digits n '.' h) (by decide)

theorem fmt_charset (q : ℚ) (d : ℕ) :
    ∀ c ∈ (fmt q d).data, c ∈ decimalCharSet := by
  intro c hc
  rw [fmt_data_eq] at hc
  rcases List.mem_append.mp hc with h | h
  · rcases List.mem_append.mp h with h1 | h1
    · split_ifs at h1 with hq
      · rw [List.mem_singleton] at h1
        rw [h1]
        decide
      · simp at h1
    · have h2 := natChars_digits _ c h1
      unfold decimalCharSet
      exact List.mem_cons_of_mem _ (List.mem_cons_of_mem _ h2)
  · split_ifs at h with hF
    · simp at h
    · rcases List.mem_cons.mp h with h1 | h1
      · rw [h1]
        decide
      · have h2 := padChars_digits _ d c (rstrip_subset '0' _ c h1)
        unfold decimalCharSet
        exact List.mem_cons_of_mem _ (List.mem_cons_of_mem _ h2)

theorem fmt_decimals_le (q : ℚ) (d : ℕ) :
    decimalsAfterDot (fmt q d).data ≤ d := by
  rw [fmt_data_eq]
  by_cases hF : rstripChar '0'
      (padChars ((pyRound (q * 10 ^ d)).natAbs % 10 ^ d) d) = []
  · rw [if_pos hF, List.append_nil]
    unfold decimalsAfterDot
    rw [if_neg (dot_not_mem_sign_int q _)]
    exact Nat.zero_le d
  · rw [if_neg hF]
    unfold decimalsAfterDot
    rw [if_pos (List.mem_append.mpr (Or.inr (List.mem_cons_self _ _)))]
    have hall : ∀ y ∈ (rstripChar '0'
        (padChars ((pyRound (q * 10 ^ d)).natAbs % 10 ^ d) d)).reverse,
        (fun c => decide (c ≠ '.')) y = true := by
      intro y hy
      rw [List.mem_reverse] at hy
      have hd2 := digit_ne_dot y
        (padChars_digits _ d y (rstrip_subset '0' _ y hy))
      simp [hd2]
    have hdot : (fun c => decide (c ≠ '.')) '.' = false := by simp
    rw [List.reverse_append, List.reverse_cons, List.append_assoc,
      List.singleton_append, takeWhile_append_of_all _ '.' _ hall hdot,
      List.length_reverse]
    calc (rstripChar '0'
          (padChars ((pyRound (q * 10 ^ d)).natAbs % 10 ^ d) d)).length
        ≤ (padChars ((pyRound (q * 10 ^ d)).natAbs % 10 ^ d) d).length :=
          rstrip_length_le _ _
      _ = d := padChars_length _ d

theorem fmt_last_char (q : ℚ) (d : ℕ) (a : Char)
    (ha : (fmt q d).data.getLast? = some a) :
    a ≠ '.' ∧ ('.' ∈ (fmt q d).data → a ≠ '0') := by
  by_cases hF : rstripChar '0'
      (padChars ((pyRound (q * 10 ^ d)).natAbs % 10 ^ d) d) = []
  · rw [fmt_data_eq, if_pos hF, List.append_nil] at ha
    rw [fmt_data_eq, if_pos hF, List.append_nil]
    constructor
    · rw [List.getLast?_append_of_ne_nil _ (natChars_ne_nil _)] at ha
      exact digit_ne_dot a (natChars_digits _ a
        (List.mem_of_mem_getLast? (Option.mem_def.mpr ha)))
    · intro hdot
      exact absurd hdot (dot_not_mem_sign_int q _)
  · rw [fmt_data_eq, if_neg hF] at ha
    rw [fmt_data_eq, if_neg hF]
    have hb : (rstripChar '0'
        (padChars ((pyRound (q * 10 ^ d)).natAbs % 10 ^ d) d)).getLast?
        = some a := by
      rw [List.getLast?_append_of_ne_nil _
          (by simp : ('.' :: rstripChar '0'
            (padChars ((pyRound (q * 10 ^ d)).natAbs % 10 ^ d) d)) ≠ []),
        show ('.' :: rstripChar '0'
            (padChars ((pyRound (q * 10 ^ d)).natAbs % 10 ^ d) d)) =
          ['.'] ++ rstripChar '0'
            (padChars ((pyRound (q * 10 ^ d)).natAbs % 10 ^ d) d)
          from rfl,
        List.getLast?_append_of_ne_nil _ hF] at ha
      exact ha
    constructor
    · exact digit_ne_dot a (padChars_digits _ d a
        (rstrip_subset '0' _ a
          (List.mem_of_mem_getLast? (Option.mem_def.mpr hb))))
    · intro _
      exact rstrip_getLast_ne '0' _ a hb

theorem natChars_one : natChars 1 = ['1'] := by
  unfold natChars
  rw [if_neg (by norm_num),
    Nat.digits_def' (by norm_num : (1 : ℕ) < 10) (by norm_num)]
  norm_num
  decide

theorem natChars_two : natChars 2 = ['2'] := by
  unfold natChars
  rw [if_neg (by norm_num),
    Nat.digits_def' (by norm_num : (1 : ℕ) < 10) (by norm_num)]
  norm_num
  decide

theorem fmt_ex_three_halves : fmt (3 / 2) 4 = "1.5" := by
  have hp : pyRound ((3 : ℚ) / 2 * 10 ^ 4) = 15000 :=
    pyRound_eq_of_lt_half (by norm_num) (by norm_num)
  have hfx : fixedChars (3 / 2) 4 = ['1', '.', '5', '0', '0', '0'] := by
    unfold fixedChars
    rw [hp, if_neg (by norm_num),
      show ((15000 : ℤ).natAbs / 10 ^ 4) = 1 from rfl,
      show ((15000 : ℤ).natAbs % 10 ^ 4) = 5000 from rfl,
      natChars_one]
    rfl
  unfold fmt
  rw [hfx]
  rfl

theorem fmt_ex_neg_one_twentieth : fmt (-(1 / 20)) 4 = "-0.05" := by
  have hp : pyRound ((-(1 / 20) : ℚ) * 10 ^ 4) = -500 :=
    pyRound_eq_of_lt_half (by norm_num) (by norm_num)
  have hfx : fixedChars (-(1 / 20)) 4 =
      ['-', '0', '.', '0', '5', '0', '0'] := by
    unfold fixedChars
    rw [hp, if_pos (by norm_num),
      show (((-500 : ℤ)).natAbs / 10 ^ 4) = 0 from rfl,
      show (((-500 : ℤ)).natAbs % 10 ^ 4) = 500 from rfl,
      show natChars 0 = ['0'] from rfl]
    rfl
  unfold fmt
  rw [hfx]
  rfl

theorem fmt_ex_two : fmt 2 4 = "2" := by
  have hp : pyRound ((2 : ℚ) * 10 ^ 4) = 20000 :=
    pyRound_eq_of_lt_half (by norm_num) (by norm_num)
  have hfx : fixedChars 2 4 = ['2', '.', '0', '0', '0', '0'] := by
    unfold fixedChars
    rw [hp, if_neg (by norm_num),
      show ((20000 : ℤ).natAbs / 10 ^ 4) = 2 from rfl,
      show ((20000 : ℤ).natAbs % 10 ^ 4) = 0 from rfl,
      natChars_two]
    rfl
  unfold fmt
  rw [hfx]
  rfl

/-- C9.  `fmt` is the fixed-point rendering with at most `decimals`
decimals (4 for coordinates, 1 for feeds), trailing zeros and a trailing
decimal point stripped: e.g. 1.5 → "1.5", -0.05 → "-0.05", 2 → "2"; the
output never ends in '.' nor, when it contains a decimal point, in '0';
it has at most 4 (resp. 1) characters after the point; and it draws only
on sign, point and digit characters — never scientific notation. -/
theorem fmt_spec :
    fmt (3 / 2) 4 = "1.5" ∧
    fmt (-(1 / 20)) 4 = "-0.05" ∧
    fmt 2 4 = "2" ∧
    (∀ (q : ℚ) (d : ℕ), ∀ c ∈ (fmt q d).data, c ∈ decimalCharSet) ∧
    (∀ (q : ℚ) (d : ℕ), 'e' ∉ (fmt q d).data ∧ 'E' ∉ (fmt q d).data) ∧
    (∀ q : ℚ, decimalsAfterDot (fmt q 4).data ≤ 4) ∧
    (∀ q : ℚ, decimalsAfterDot (fmt q 1).data ≤ 1) ∧
    (∀ (q : ℚ) (d : ℕ) (a : Char), (fmt q d).data.getLast? = some a →
      a ≠ '.' ∧ ('.' ∈ (fmt q d).data → a ≠ '0')) := by
  refine ⟨fmt_ex_three_halves, fmt_ex_neg_one_twentieth, fmt_ex_two,
    fmt_charset, ?_, fun q => fmt_decimals_le q 4,
    fun q => fmt_decimals_le q 1, fmt_last_char⟩
  intro q d
  constructor
  · intro h
    exact absurd (fmt_charset q d 'e' h) (by decide)
  · intro h
    exact absurd (fmt_charset q d 'E' h) (by decide)

/-- Witness for C9: the rendering of 3/2, which ends in '5', not in '.'
and not in '0'. -/
theorem fmt_spec_witness :
    ('5' : Char) ≠ '.' ∧
    ('.' ∈ (fmt (3 / 2) 4).data → ('5' : Char) ≠ '0') := by
  have h := fmt_spec
  refine h.2.2.2.2.2.2.2 (3 / 2) 4 '5' ?_
  rw [h.1]
  rfl

/-! ## Contour lookup indexing (roughing.py line 68, finishing.py line 54) -/

/-- Python list indexing `l[idx]`: negative indices count from the end;
an index out of bounds raises IndexError, modelled as `none`. -/
def pyListGet {α : Type} (l : List α) (idx : ℤ) : Option α :=
  if h : 0 ≤ (if idx < 0 then idx + l.length else idx) ∧
      (if idx < 0 then idx + l.length else idx) < l.length then
    some (l.get ⟨(if idx < 0 then idx + l.length else idx).toNat,
      by omega⟩)
  else none

/-- The contour lookup `part_contours[min(i, len(part_contours) - 1)]`
shared by `generate_roughing_toolpath` (roughing.py lines 67-69) and
`generate_finishing_toolpath` (finishing.py lines 53-55), under Python
list-indexing semantics (Python's `min` on ints is ℤ's min). -/
def contourLookup {α : Type} (contours : List α) (i : ℕ) : Option α :=
  pyListGet contours (min (i : ℤ) ((contours.length : ℤ) - 1))

/-- C10.  With a non-empty cross-section list the lookup index
min(i, len − 1) is in bounds for every level index i, so the out-of-bounds
branch is unreachable; with an empty list and any level index the lookup is
out of bounds (Python raises IndexError instead of applying the
reuse-the-last-contour rule). -/
theorem contourLookup_spec {α : Type} (contours : List α) (i : ℕ) :
    (contours ≠ [] → (contourLookup contours i).isSome = true) ∧
    (contours = [] → contourLookup contours i = none) := by
  constructor
  · intro hne
    have hlen : 0 < contours.length := List.length_pos.mpr hne
    unfold contourLookup pyListGet
    have h0 : ¬ (min (i : ℤ) ((contours.length : ℤ) - 1)) < 0 := by omega
    simp only [if_neg h0]
    rw [dif_pos ⟨by omega, by omega⟩]
    rfl
  · intro hnil
    subst hnil
    unfold contourLookup pyListGet
    have hm : min ((i : ℤ)) ((([] : List α).length : ℤ) - 1) = -1 := by
      simp only [List.length_nil, Nat.cast_zero, zero_sub]
      omega
    simp only [hm]
    rw [dif_neg (by simp)]

/-- Witness for C10 on the two-element list [1, 2] with level index 5, and
the empty list with level index 0. -/
theorem contourLookup_spec_witness :
    ([(1 : ℚ), 2] ≠ []) ∧
    (contourLookup [(1 : ℚ), 2] 5).isSome = true ∧
    contourLookup ([] : List ℚ) 0 = none :=
  ⟨by simp, (contourLookup_spec [(1 : ℚ), 2] 5).1 (by simp),
    (contourLookup_spec ([] : List ℚ) 0).2 rfl⟩

end TormachCam
